import Mathlib

/-!
Verification development for the GHES starter-workflow sync script.

The TypeScript sources are shallowly embedded: strings are Lean strings
(character lists), the directory tree and the per-workflow properties
sidecars are an explicit environment record, the async orchestration is a
pure sequence of actions, and the child-process behaviour of the command
runner is an explicit datum.  Every definition is translated from the
source files under `script/sync-ghes/`.
-/

namespace SyncGhes

/-- Character-list version of a prefix test: `leadsWith p s` is `true`
exactly when `p` is a leading segment of `s`.  Used to model pattern
matching at a position of a JavaScript string. -/
def leadsWith : List Char → List Char → Bool
  | [], _ => true
  | _ :: _, [] => false
  | a :: as, b :: bs => a == b && leadsWith as bs

/-- `listContains p s` is `true` exactly when `p` occurs as a contiguous
segment of `s`.  Models `String.prototype.includes`. -/
def listContains (p : List Char) : List Char → Bool
  | [] => leadsWith p []
  | s@(_ :: rest) => leadsWith p s || listContains p rest

/-- `strContains hay needle` models `hay.includes(needle)` from JavaScript. -/
def strContains (hay needle : String) : Bool :=
  listContains needle.data hay.data

/-- Fuelled scanner for the global replacement: on each step either the
pattern `p` matches at the head and is replaced by `q` (the scan resumes
after the matched input characters), or the head character is copied.  The
fuel only bounds the recursion and never runs out when it starts at the
length of the scanned list. -/
def replaceAllGo (p q : List Char) : Nat → List Char → List Char
  | _, [] => []
  | 0, s => s
  | fuel + 1, c :: rest =>
    if p ≠ [] ∧ leadsWith p (c :: rest) = true then
      q ++ replaceAllGo p q fuel ((c :: rest).drop p.length)
    else
      c :: replaceAllGo p q fuel rest

/-- Left-to-right, non-overlapping replacement of every occurrence of `p`
by `q`, continuing the scan after each replaced occurrence.  This models a
JavaScript global regex replace with a literal pattern, as used by the
artifact version downgrade in the sync script. -/
def replaceAll (p q s : List Char) : List Char :=
  replaceAllGo p q s.length s

/-- String-level wrapper for `replaceAll`. -/
def replaceAllStr (p q s : String) : String :=
  String.mk (replaceAll p.data q.data s.data)

/-- The per-file body of `downgradeArtifactActions`: skip the file when it
does not contain the literal `@v4` (`if (!content.includes("@v4")) continue;`),
otherwise globally replace the upload-artifact reference and then the
download-artifact reference.  `none` means the file is not rewritten at all. -/
def downgradeContent (content : String) : Option String :=
  if strContains content "@v4" then
    some (replaceAllStr "actions/download-artifact@v4" "actions/download-artifact@v3"
      (replaceAllStr "actions/upload-artifact@v4" "actions/upload-artifact@v3" content))
  else
    none

/-- ASCII lowercasing, modelling `String.prototype.toLowerCase` on the
ASCII identifiers used by the script. -/
def strLower (s : String) : String :=
  String.mk (s.data.map Char.toLower)

/-- `actionNameOf u` models `u.split("@")[0]`: the characters of `u`
before the first `@`. -/
def actionNameOf (u : String) : String :=
  String.mk (u.data.takeWhile (fun c => !(c == '@')))

/-- `splitOnChar sep cs` models `String.prototype.split` with a single
character separator (`"".split` gives `[""]`, a leading separator gives a
leading empty field, and so on). -/
def splitOnChar (sep : Char) : List Char → List (List Char)
  | [] => [[]]
  | c :: rest =>
    let r := splitOnChar sep rest
    if c == sep then [] :: r
    else
      match r with
      | [] => [[c]]
      | h :: t => (c :: h) :: t

/-- `joinSlash` models `Array.prototype.join("/")`. -/
def joinSlash : List (List Char) → List Char
  | [] => []
  | [x] => x
  | x :: xs => x ++ '/' :: joinSlash xs

/-- `actionNwoOf u` models `actionName.split("/").slice(0, 2).join("/")`
applied to `actionNameOf u`: the owner/repo part of an action reference. -/
def actionNwoOf (u : String) : String :=
  String.mk (joinSlash ((splitOnChar '/' (actionNameOf u).data).take 2))

/-- The membership test of `checkWorkflow`: the lowercased owner/repo of a
`uses` value is looked up in the lowercased allow-list (the source builds
`new Set(enabledActions.map(x => x.toLowerCase()))`). -/
def allowedAction (acts : List String) (u : String) : Bool :=
  (acts.map strLower).contains (strLower (actionNwoOf u))

/-- One step of a workflow document.  Only the fields the script reads are
modelled; a missing field is `none`. -/
structure WfStep where
  uses : Option String := none
  stepName : Option String := none
  stepRun : Option String := none
deriving DecidableEq

/-- One job of a workflow document. -/
structure Job where
  steps : Option (List WfStep) := none
deriving DecidableEq

/-- A parsed workflow document: an optional mapping of job name to job,
kept in insertion order (matching `Object.values`). -/
structure Workflow where
  jobs : Option (List (String × Job)) := none
deriving DecidableEq

/-- The inner loop of `checkWorkflow` over the steps of one job.  A step
whose `uses` field is missing or the empty string is skipped (the source
guards with JavaScript truthiness, `if (step.uses)`).  The first reference
whose owner/repo is not allow-listed stops the scan with a diagnostic that
records the workflow path and the offending reference (the part of the
`uses` value before `@`). -/
def checkSteps (path : String) (acts : List String) : List WfStep → Bool × List (String × String)
  | [] => (true, [])
  | st :: rest =>
    match st.uses with
    | some u =>
      if u == "" then checkSteps path acts rest
      else if allowedAction acts u then checkSteps path acts rest
      else (false, [(path, actionNameOf u)])
    | none => checkSteps path acts rest

/-- The outer loop of `checkWorkflow` over `Object.values(workflow.jobs || {})`. -/
def checkJobs (path : String) (acts : List String) : List (String × Job) → Bool × List (String × String)
  | [] => (true, [])
  | nj :: rest =>
    let r := checkSteps path acts (nj.2.steps.getD [])
    if r.1 then checkJobs path acts rest else r

/-- `checkWorkflowRun path wf acts` models `checkWorkflow(workflowPath,
enabledActions)` on the already-parsed document `wf`: the Boolean result
together with the list of emitted diagnostics (file, offending reference). -/
def checkWorkflowRun (path : String) (wf : Workflow) (acts : List String) :
    Bool × List (String × String) :=
  checkJobs path acts (wf.jobs.getD [])

/-- All steps of a workflow in scan order, job by job. -/
def joinSteps : List (String × Job) → List WfStep
  | [] => []
  | nj :: rest => nj.2.steps.getD [] ++ joinSteps rest

/-- All steps of a workflow document in the order `checkWorkflow` visits
them. -/
def allStepsOf (wf : Workflow) : List WfStep :=
  joinSteps (wf.jobs.getD [])

/-- The `uses` value the checker actually evaluates for a step, if any:
present and not the empty string. -/
def stepConsidered (st : WfStep) : Option String :=
  match st.uses with
  | some u => if u == "" then none else some u
  | none => none

/-- A step passes the checker when it is skipped or its reference is
allow-listed. -/
def stepPasses (acts : List String) (st : WfStep) : Bool :=
  match stepConsidered st with
  | some u => allowedAction acts u
  | none => true

/-- The fixed step object appended by `addPlaceholderStep`. -/
def placeholderStep : WfStep :=
  { uses := none
    stepName := some "Custom placeholder step"
    stepRun := some "# TODO: add commands here" }

/-- `addPlaceholderStep` from `index.ts`: return the document unchanged
when it has no `jobs` key; otherwise push the placeholder step onto every
job step list, creating the list when absent (`job.steps || []`). -/
def addPlaceholderStep (wf : Workflow) : Workflow :=
  match wf.jobs with
  | none => wf
  | some jl =>
    ⟨some (jl.map (fun nj => (nj.1, ⟨some (nj.2.steps.getD [] ++ [placeholderStep])⟩)))⟩

/-- One CODEOWNERS rule: a path pattern and the teams owning it. -/
structure CodeOwnerRule where
  pattern : String
  teams : List String
deriving DecidableEq

/-- The ownership configuration read from the JSON config file. -/
structure CodeOwnersConfig where
  owners : List CodeOwnerRule
deriving DecidableEq

/-- `joinWith sep xs` models `Array.prototype.join(sep)`. -/
def joinWith (sep : String) : List String → String
  | [] => ""
  | [x] => x
  | x :: xs => x ++ sep ++ joinWith sep xs

/-- The generated-file header comment pushed first by the CODEOWNERS
generator. -/
def codeownersHeader : String :=
  "# Auto-generated CODEOWNERS. Do not edit manually."

/-- One emitted rule line: the pattern, a space, and the teams joined by
single spaces. -/
def codeownerLine (r : CodeOwnerRule) : String :=
  r.pattern ++ " " ++ joinWith " " r.teams

/-- The list of lines built by the CODEOWNERS generator: header, blank
line, one line per rule in config order, trailing blank line. -/
def codeownersLines (config : CodeOwnersConfig) : List String :=
  codeownersHeader :: "" :: (config.owners.map codeownerLine ++ [""])

/-- The file content written by the generator: `lines.join("\n")`. -/
def codeownersContent (config : CodeOwnersConfig) : String :=
  joinWith "\n" (codeownersLines config)

/-- Options accepted by the command runner `exec` (the `cwd`/`env` spawn
options carry no logic and are omitted). -/
structure ExecOptions where
  allowNonZeroExit : Bool := false
  timeoutMs : Option Nat := none
deriving DecidableEq

/-- The observable behaviour of the spawned child process: either the
spawn itself fails (the `error` event fires), or the process eventually
closes with an exit code (`none` when killed by a signal), the captured
output streams, and the time it took. -/
inductive ChildBehavior where
  | spawnError (message : String)
  | closes (exitCode : Option Int) (stdout stderr : String) (durationMs : Nat)
deriving DecidableEq

/-- The value `exec` resolves with. -/
structure ExecResult where
  stdout : String
  stderr : String
  exitCode : Option Int
deriving DecidableEq

/-- The ways `exec` rejects. -/
inductive ExecFailure where
  | spawnFailure (message : String)
  | timeout (message : String)
  | nonZeroExit (message : String)
deriving DecidableEq

/-- ASCII whitespace trim, modelling `String.prototype.trim` on the
captured stderr. -/
def strTrim (s : String) : String :=
  let ws : Char → Bool := fun c => c == ' ' || c == '\t' || c == '\n' || c == '\r'
  String.mk (((s.data.dropWhile ws).reverse.dropWhile ws).reverse)

/-- The timer of `exec` is armed only for a truthy positive `timeoutMs`
(`if (timeoutMs && timeoutMs > 0)`), and fires when the child has not
closed strictly before the deadline. -/
def timeoutFires (opts : ExecOptions) (durationMs : Nat) : Bool :=
  match opts.timeoutMs with
  | some t => decide (0 < t) && decide (t ≤ durationMs)
  | none => false

/-- The message of the non-zero-exit rejection, built exactly as in the
source: exit code, command line, and the trimmed captured stderr (or the
placeholder `(empty)` when it trims to nothing). -/
def nonZeroExitMessage (command : String) (args : List String) (code : Option Int)
    (stderr : String) : String :=
  "Command failed with exit code " ++
    (match code with | some c => toString c | none => "null") ++ "\n" ++
    "Command: " ++ command ++ " " ++ joinWith " " args ++ "\n" ++
    "STDERR:\n" ++ (if strTrim stderr == "" then "(empty)" else strTrim stderr)

/-- The settled outcome of an `exec(command, args, options)` call as a
function of the child behaviour: a spawn error rejects; an armed timeout
that expires rejects (the child is killed and the promise settles before
the later `close` event can resolve it); otherwise a zero exit code or an
explicit `allowNonZeroExit` resolves with the captured result, and any
other exit rejects with the stderr-carrying message. -/
def execModel (command : String) (args : List String) (opts : ExecOptions)
    (child : ChildBehavior) : Except ExecFailure ExecResult :=
  match child with
  | .spawnError m => .error (.spawnFailure m)
  | .closes code out err dur =>
    if timeoutFires opts dur then
      .error (.timeout ("Command timed out after " ++
        toString (opts.timeoutMs.getD 0) ++ "ms"))
    else if code == some 0 || opts.allowNonZeroExit then
      .ok ⟨out, err, code⟩
    else
      .error (.nonZeroExit (nonZeroExitMessage command args code err))

/-- One directory entry as returned by `fs.readdir(folder, { withFileTypes:
true })`: its name and whether it is a regular file. -/
structure DirEntry where
  name : String
  isFile : Bool
deriving DecidableEq

/-- The properties sidecar of one workflow (`<id>.properties.json`). -/
structure WorkflowProperties where
  propName : String := ""
  description : String := ""
  iconName : Option String := none
  categories : Option (List String) := none
  creator : Option String := none
  enterprise : Option Bool := none
deriving DecidableEq

/-- The icon type recorded on a workflow descriptor. -/
inductive IconType where
  | svg
  | octicon
deriving DecidableEq

/-- A workflow descriptor as produced by the inventory scan. -/
structure WorkflowDesc where
  folder : String
  id : String
  iconName : Option String
  iconType : IconType
deriving DecidableEq

/-- The partition produced by `checkWorkflows`. -/
structure WorkflowsCheckResult where
  compatibleWorkflows : List WorkflowDesc
  incompatibleWorkflows : List WorkflowDesc
deriving DecidableEq

/-- The file-system and sidecar environment the scan runs against:
directory listings per folder, the properties loader (`none` models a
missing or unparsable sidecar, a benign skip), and the workflow reader
(`none` models a read or YAML parse failure, which is fatal when the
checker is actually consulted). -/
structure ScanEnv where
  entries : String → List DirEntry
  props : String → String → Option WorkflowProperties
  readWorkflow : String → Option Workflow

/-- `basename` of a path string as used on folder paths: strip trailing
separators, then keep the part after the last `/`. -/
def basename (s : String) : String :=
  let rev := s.data.reverse.dropWhile (fun c => c == '/')
  String.mk ((rev.takeWhile (fun c => !(c == '/'))).reverse)

/-- `extname` of a plain directory-entry name: the part of the name from
its last dot, empty when there is no dot or the only dot starts the name
(Node treats dotfiles as extensionless). -/
def extnameOf (s : String) : String :=
  let rev := s.data.reverse
  let afterRev := rev.takeWhile (fun c => !(c == '.'))
  if afterRev.length + 1 < s.data.length then String.mk ('.' :: afterRev.reverse)
  else ""

/-- `basename(name, ext)`: strip a final `ext` from `name` when `name` is
strictly longer than `ext` and ends with it. -/
def stripExt (name ext : String) : String :=
  if ext.data.length < name.data.length ∧
      name.data.drop (name.data.length - ext.data.length) = ext.data then
    String.mk (name.data.take (name.data.length - ext.data.length))
  else name

/-- `path.join(folder, name)` for a folder path and a plain entry name. -/
def pathJoin (a b : String) : String := a ++ "/" ++ b

/-- A directory entry is scanned when it is a regular file with the `.yml`
extension (`entry.isFile() && extname(entry.name) === ".yml"`). -/
def isYmlEntry (e : DirEntry) : Bool :=
  e.isFile && extnameOf e.name == ".yml"

/-- The workflow id of an entry: `basename(e.name, ".yml")`. -/
def entryId (e : DirEntry) : String := stripExt e.name ".yml"

/-- Whether the sidecar marks a partner workflow: its `creator`, lowercased,
is in the lowercased partner set; a missing creator is never a partner. -/
def isPartnerProps (partners : List String) (p : WorkflowProperties) : Bool :=
  match p.creator with
  | some c => (partners.map strLower).contains (strLower c)
  | none => false

/-- Icon type computed from the sidecar:
`props.iconName?.startsWith("octicon") ? "octicon" : "svg"`. -/
def iconTypeOf (iconName : Option String) : IconType :=
  match iconName with
  | some n => if leadsWith "octicon".data n.data then .octicon else .svg
  | none => .svg

/-- The descriptor built for a scanned workflow. -/
def descOf (folder id : String) (p : WorkflowProperties) : WorkflowDesc :=
  ⟨folder, id, p.iconName, iconTypeOf p.iconName⟩

/-- The enabled bit of one scanned workflow, with the short-circuit
evaluation order of
`!isPartner && (props.enterprise === true || !isCodeScanning) && (isReadOnly || await checkWorkflow(...))`:
the workflow file is only read (and a read failure is only fatal, `none`)
when the earlier conjuncts did not already decide the outcome. -/
def classify (env : ScanEnv) (acts partners readOnly : List String)
    (folder : String) (e : DirEntry) (p : WorkflowProperties) : Option Bool :=
  if isPartnerProps partners p then some false
  else if !((p.enterprise == some true) || !(basename folder == "code-scanning")) then
    some false
  else if readOnly.contains folder then some true
  else
    (env.readWorkflow (pathJoin folder e.name)).map
      (fun wf => (checkWorkflowRun (pathJoin folder e.name) wf acts).1)

/-- Processing of one directory entry by `checkWorkflows`: `some none`
skips it (not a `.yml` regular file, or no loadable sidecar), `none` is a
fatal workflow read failure, and `some (some (d, b))` records the
descriptor and its enabled bit. -/
def processEntry (env : ScanEnv) (acts partners readOnly : List String)
    (folder : String) (e : DirEntry) : Option (Option (WorkflowDesc × Bool)) :=
  if isYmlEntry e then
    match env.props folder (entryId e) with
    | none => some none
    | some p =>
      (classify env acts partners readOnly folder e p).map
        (fun b => some (descOf folder (entryId e) p, b))
  else some none

/-- The contribution of one entry to the scanned list, when any. -/
def candOf (env : ScanEnv) (acts partners readOnly : List String)
    (folder : String) (e : DirEntry) : Option (WorkflowDesc × Bool) :=
  (processEntry env acts partners readOnly folder e).getD none

/-- The entry loop of `checkWorkflows` over one folder. -/
def scanEntries (env : ScanEnv) (acts partners readOnly : List String)
    (folder : String) : List DirEntry → Option (List (WorkflowDesc × Bool))
  | [] => some []
  | e :: rest =>
    match processEntry env acts partners readOnly folder e with
    | none => none
    | some none => scanEntries env acts partners readOnly folder rest
    | some (some x) =>
      (scanEntries env acts partners readOnly folder rest).map (fun l => x :: l)

/-- The folder loop of `checkWorkflows`. -/
def scanFolders (env : ScanEnv) (acts partners readOnly : List String) :
    List String → Option (List (WorkflowDesc × Bool))
  | [] => some []
  | f :: rest =>
    match scanEntries env acts partners readOnly f (env.entries f) with
    | none => none
    | some l1 => (scanFolders env acts partners readOnly rest).map (fun l2 => l1 ++ l2)

/-- `checkWorkflows(folders, enabledActions, partners, readOnlyFolders)`:
scan every folder and partition the descriptors by their enabled bit
(the source pushes each descriptor onto exactly one of the two lists). -/
def checkWorkflows (env : ScanEnv) (acts partners readOnly folders : List String) :
    Option WorkflowsCheckResult :=
  (scanFolders env acts partners readOnly folders).map (fun l =>
    ⟨(l.filter (fun x => x.2)).map (fun x => x.1),
     (l.filter (fun x => !x.2)).map (fun x => x.1)⟩)

/-- The abstract actions the orchestrator entry point performs, in source
order. -/
inductive OrchAction where
  | scanWorkflows
  | reportCompatible
  | reportIncompatible
  | gitCheckoutGhes
  | removeModifiableFolders
  | removeIcons
  | restoreReadOnlyFolders
  | restoreCompatiblePaths
  | downgradeArtifactActions
  | addPlaceholderSteps
  | regenerateCodeowners
deriving DecidableEq

/-- The sequence of actions performed by the `main` entry point of the
sync script, read off its body top to bottom: scan, report both lists,
`git checkout ghes`, `rm -fr` of the modifiable folders and the icons
directory, restore of read-only folders from main, restore of compatible
workflow paths from main, and the artifact version downgrade.  The run
then completes; `addPlaceholderStep` and the CODEOWNERS generator are
defined in the repository but never invoked here. -/
def mainPipeline : List OrchAction :=
  [.scanWorkflows, .reportCompatible, .reportIncompatible, .gitCheckoutGhes,
   .removeModifiableFolders, .removeIcons, .restoreReadOnlyFolders,
   .restoreCompatiblePaths, .downgradeArtifactActions]

/-- Concrete workflow with one job whose only step carries an explicitly
empty `uses` value. -/
def cexWorkflowC3 : Workflow :=
  ⟨some [("build", ⟨some [{ uses := some "" }]⟩)]⟩

/-- Concrete workflow with one job whose only step carries an explicitly
empty `uses` value (a second fixture, used independently). -/
def cexWorkflowC9 : Workflow :=
  ⟨some [("deploy", ⟨some [{ uses := some "" }]⟩)]⟩

/-- Concrete workflow whose single step references a pinned allow-listed
action. -/
def okWorkflowC3 : Workflow :=
  ⟨some [("build", ⟨some [{ uses := some "actions/checkout@v4" }]⟩)]⟩

/-- A sample concrete step, used to instantiate the placeholder theorem. -/
def sampleStep : WfStep := { uses := some "actions/checkout@v4" }

/-- A sidecar with all optional fields absent. -/
def witnessProps : WorkflowProperties := {}

/-- A single-step workflow referencing an unpinned allow-listed action. -/
def witnessWorkflow : Workflow :=
  ⟨some [("build", ⟨some [{ uses := some "actions/checkout" }]⟩)]⟩

/-- A one-folder, one-workflow environment used to instantiate the scan
theorems on concrete data. -/
def witnessEnv : ScanEnv where
  entries := fun f => if f == "ci" then [⟨"blank.yml", true⟩] else []
  props := fun f id => if f == "ci" && id == "blank" then some witnessProps else none
  readWorkflow := fun path => if path == "ci/blank.yml" then some witnessWorkflow else none

/-- The partition the scan produces on `witnessEnv`. -/
def witnessResult : WorkflowsCheckResult :=
  ⟨[⟨"ci", "blank", none, IconType.svg⟩], []⟩

theorem leadsWith_iff (p s : List Char) :
    leadsWith p s = true ↔ ∃ t, s = p ++ t := by
  induction p generalizing s with
  | nil => simp [leadsWith]
  | cons a as ih =>
    cases s with
    | nil =>
      simp [leadsWith]
    | cons b bs =>
      simp only [leadsWith, Bool.and_eq_true, beq_iff_eq, ih, List.cons_append,
        List.cons.injEq]
      constructor
      · rintro ⟨rfl, t, rfl⟩; exact ⟨t, rfl, rfl⟩
      · rintro ⟨t, rfl, rfl⟩; exact ⟨rfl, t, rfl⟩

theorem leadsWith_nil_right {p : List Char} (h : leadsWith p [] = true) : p = [] := by
  cases p with
  | nil => rfl
  | cons a as => simp [leadsWith] at h

theorem leadsWith_refl (p : List Char) : leadsWith p p = true := by
  rw [leadsWith_iff]; exact ⟨[], by simp⟩

theorem leadsWith_trans {u v s : List Char} (h1 : leadsWith u v = true)
    (h2 : leadsWith v s = true) : leadsWith u s = true := by
  rw [leadsWith_iff] at h1 h2 ⊢
  obtain ⟨t1, rfl⟩ := h1
  obtain ⟨t2, rfl⟩ := h2
  exact ⟨t1 ++ t2, by simp⟩

theorem leadsWith_length_le {p s : List Char} (h : leadsWith p s = true) :
    p.length ≤ s.length := by
  rw [leadsWith_iff] at h
  obtain ⟨t, rfl⟩ := h
  simp

theorem leadsWith_append_left {v a b : List Char}
    (h : leadsWith v (a ++ b) = true) (hl : v.length ≤ a.length) :
    leadsWith v a = true := by
  induction v generalizing a with
  | nil => simp [leadsWith]
  | cons x xs ih =>
    cases a with
    | nil => simp at hl
    | cons y ys =>
      simp only [List.cons_append, leadsWith, Bool.and_eq_true] at h ⊢
      exact ⟨h.1, ih h.2 (by simpa using Nat.succ_le_succ_iff.mp (by simpa using hl))⟩

theorem leadsWith_of_append_longer {v a b : List Char}
    (h : leadsWith v (a ++ b) = true) (hl : a.length ≤ v.length) :
    leadsWith a v = true := by
  induction a generalizing v with
  | nil => simp [leadsWith]
  | cons y ys ih =>
    cases v with
    | nil => simp at hl
    | cons x xs =>
      simp only [List.cons_append, leadsWith, Bool.and_eq_true, beq_iff_eq] at h ⊢
      exact ⟨(h.1).symm, ih h.2 (by simpa using Nat.succ_le_succ_iff.mp (by simpa using hl))⟩

theorem listContains_iff (p s : List Char) :
    listContains p s = true ↔ ∃ a b, s = a ++ p ++ b := by
  induction s with
  | nil =>
    simp only [listContains]
    constructor
    · intro h
      exact ⟨[], [], by simp [leadsWith_nil_right h]⟩
    · rintro ⟨a, b, h⟩
      have : p = [] := by
        rcases List.append_eq_nil.mp (List.append_eq_nil.mp h.symm).1 with ⟨_, h2⟩
        exact h2
      simp [this, leadsWith]
  | cons c rest ih =>
    simp only [listContains, Bool.or_eq_true, ih, leadsWith_iff]
    constructor
    · rintro (⟨t, h⟩ | ⟨a, b, h⟩)
      · exact ⟨[], t, by simp [h]⟩
      · exact ⟨c :: a, b, by simp [h]⟩
    · rintro ⟨a, b, h⟩
      cases a with
      | nil => exact Or.inl ⟨b, by simpa using h⟩
      | cons a0 as =>
        right
        simp only [List.cons_append, List.cons.injEq] at h
        exact ⟨as, b, by simpa using h.2⟩

theorem listContains_of_leadsWith {p s : List Char} (h : leadsWith p s = true) :
    listContains p s = true := by
  cases s with
  | nil => simpa [listContains] using h
  | cons c rest => simp [listContains, h]

theorem listContains_append_right {x b : List Char} (a : List Char)
    (h : listContains x b = true) : listContains x (a ++ b) = true := by
  rw [listContains_iff] at h ⊢
  obtain ⟨u, v, rfl⟩ := h
  exact ⟨a ++ u, v, by simp⟩

theorem listContains_drop {x s : List Char} (k : Nat)
    (h : listContains x (s.drop k) = true) : listContains x s = true := by
  have := listContains_append_right (x := x) (s.take k) h
  rwa [List.take_append_drop] at this

theorem listContains_cons_of_tail {x : List Char} {c : Char} {rest : List Char}
    (h : listContains x rest = true) : listContains x (c :: rest) = true := by
  simp [listContains, h]

/-- An occurrence of `x` in `a ++ b` lies inside `a`, lies inside `b`, or
starts at some position `n` of `a` so that the tail `a.drop n` of `a` is a
leading segment of `x`. -/
theorem listContains_append_cases {x : List Char} (a b : List Char)
    (h : listContains x (a ++ b) = true) :
    listContains x a = true ∨ listContains x b = true ∨
      ∃ n, n < a.length ∧ leadsWith (a.drop n) x = true := by
  induction a with
  | nil => exact Or.inr (Or.inl (by simpa using h))
  | cons c a' ih =>
    rw [List.cons_append] at h
    simp only [listContains, Bool.or_eq_true] at h
    rcases h with hlw | htail
    · by_cases hlenx : x.length ≤ (c :: a').length
      · exact Or.inl (listContains_of_leadsWith (leadsWith_append_left hlw hlenx))
      · refine Or.inr (Or.inr ⟨0, by simp, ?_⟩)
        simpa using leadsWith_of_append_longer hlw (Nat.le_of_not_le hlenx)
    · rcases ih htail with h1 | h2 | ⟨n, hn, hlw⟩
      · exact Or.inl (listContains_cons_of_tail h1)
      · exact Or.inr (Or.inl h2)
      · exact Or.inr (Or.inr ⟨n + 1, by simpa using hn, by simpa using hlw⟩)

/-- If a proper tail `v` of the pattern of interest `x` heads the output of
`replaceAll p q s`, then `v` already heads `s` itself (under the side
conditions relating `x`, `p` and `q` that hold for the artifact-action
literals). -/
theorem suffixScanGo (p q x : List Char)
    (hlen : x.length ≤ q.length + 1)
    (hK1 : ∀ n, n ≤ x.length → 0 < n →
      leadsWith (x.drop n) q = true → leadsWith (x.drop n) p = true) :
    ∀ fuel s, s.length ≤ fuel → ∀ v w, x = w ++ v → w ≠ [] →
      leadsWith v (replaceAllGo p q fuel s) = true → leadsWith v s = true := by
  intro fuel
  induction fuel with
  | zero =>
    intro s hs v w _ _ hlead
    have hnil : s = [] := List.eq_nil_of_length_eq_zero (Nat.le_zero.mp hs)
    subst hnil
    simpa [replaceAllGo] using hlead
  | succ N ihN =>
    intro s hs v w hx hw hlead
    cases s with
    | nil => simpa [replaceAllGo] using hlead
    | cons c rest =>
      simp only [replaceAllGo] at hlead
      by_cases hm : p ≠ [] ∧ leadsWith p (c :: rest) = true
      · rw [if_pos hm] at hlead
        cases v with
        | nil => simp [leadsWith]
        | cons v0 vs =>
          have hwlen : 0 < w.length := List.length_pos.mpr hw
          have hxlen : x.length = w.length + (v0 :: vs).length := by
            rw [hx, List.length_append]
          have hvq : (v0 :: vs).length ≤ q.length := by omega
          have hvqlead : leadsWith (v0 :: vs) q = true :=
            leadsWith_append_left hlead hvq
          have hdrop : x.drop w.length = v0 :: vs := by
            rw [hx]; exact List.drop_left w (v0 :: vs)
          have hvp : leadsWith (v0 :: vs) p = true := by
            have := hK1 w.length (by omega) hwlen (by rw [hdrop]; exact hvqlead)
            rwa [hdrop] at this
          exact leadsWith_trans hvp hm.2
      · rw [if_neg hm] at hlead
        cases v with
        | nil => simp [leadsWith]
        | cons v0 vs =>
          simp only [leadsWith, Bool.and_eq_true, beq_iff_eq] at hlead
          obtain ⟨hv0, hvs⟩ := hlead
          have hrest : leadsWith vs rest = true := by
            refine ihN rest ?_ vs (w ++ [v0]) ?_ (by simp) hvs
            · simpa using Nat.le_of_succ_le_succ (by simpa using hs)
            · rw [List.append_assoc]; simpa using hx
          simp [leadsWith, hv0, hrest]

/-- If a proper tail `v` of the pattern of interest `x` heads the output of
`replaceAll p q s`, then `v` already heads `s` itself. -/
theorem suffixScan (p q x : List Char)
    (hlen : x.length ≤ q.length + 1)
    (hK1 : ∀ n, n ≤ x.length → 0 < n →
      leadsWith (x.drop n) q = true → leadsWith (x.drop n) p = true) :
    ∀ s v w, x = w ++ v → w ≠ [] → leadsWith v (replaceAll p q s) = true →
      leadsWith v s = true :=
  fun s => suffixScanGo p q x hlen hK1 s.length s le_rfl

/-- Main no-residue lemma for `replaceAll`: under side conditions that are
decidable for the concrete action literals, the output of
`replaceAll p q s` never contains `x` — either because `x` is the replaced
pattern itself, or because `s` did not contain `x` to begin with. -/
theorem replaceAllGo_no_occurrence (p q x : List Char)
    (hp : p ≠ []) (hx : x ≠ [])
    (hlen : x.length ≤ q.length + 1)
    (hxq : listContains x q = false)
    (hsq : ∀ n, n < q.length → leadsWith (q.drop n) x = false)
    (hK1 : ∀ n, n ≤ x.length → 0 < n →
      leadsWith (x.drop n) q = true → leadsWith (x.drop n) p = true) :
    ∀ fuel s, s.length ≤ fuel → (p = x ∨ listContains x s = false) →
      listContains x (replaceAllGo p q fuel s) = false := by
  intro fuel
  induction fuel with
  | zero =>
    intro s hs _
    have hnil : s = [] := List.eq_nil_of_length_eq_zero (Nat.le_zero.mp hs)
    subst hnil
    cases x with
    | nil => exact absurd rfl hx
    | cons x0 xs => simp [replaceAllGo, listContains, leadsWith]
  | succ N ihN =>
    intro s hs hd
    cases s with
    | nil =>
      cases x with
      | nil => exact absurd rfl hx
      | cons x0 xs => simp [replaceAllGo, listContains, leadsWith]
    | cons c rest =>
      simp only [replaceAllGo]
      by_cases hm : p ≠ [] ∧ leadsWith p (c :: rest) = true
      · rw [if_pos hm]
        by_contra hcon
        rw [Bool.not_eq_false] at hcon
        rcases listContains_append_cases q _ hcon with h1 | h2 | ⟨n, hn, hlw⟩
        · rw [hxq] at h1; exact absurd h1 (by simp)
        · have hdisj : p = x ∨ listContains x ((c :: rest).drop p.length) = false := by
            rcases hd with hpx | hns
            · exact Or.inl hpx
            · right
              by_contra hh
              rw [Bool.not_eq_false] at hh
              rw [listContains_drop p.length hh] at hns
              exact absurd hns (by simp)
          have hlp : 0 < p.length := List.length_pos.mpr hp
          have hbound : ((c :: rest).drop p.length).length ≤ N := by
            simp only [List.length_drop, List.length_cons]
            have : rest.length + 1 ≤ N + 1 := by simpa using hs
            omega
          have := ihN _ hbound hdisj
          rw [this] at h2
          exact absurd h2 (by simp)
        · rw [hsq n hn] at hlw
          exact absurd hlw (by simp)
      · rw [if_neg hm]
        rw [listContains]
        have hmlead : leadsWith p (c :: rest) = false := by
          rcases Bool.eq_false_or_eq_true (leadsWith p (c :: rest)) with h | h
          · exact absurd ⟨hp, h⟩ hm
          · exact h
        have htailfalse : listContains x rest = false ∨ p = x := by
          rcases hd with hpx | hns
          · exact Or.inr hpx
          · left
            rcases Bool.eq_false_or_eq_true (listContains x rest) with h | h
            · rw [listContains_cons_of_tail h] at hns
              exact absurd hns (by simp)
            · exact h
        have hR : listContains x (replaceAllGo p q N rest) = false := by
          refine ihN rest (by simpa using Nat.le_of_succ_le_succ (by simpa using hs)) ?_
          rcases htailfalse with h | h
          · exact Or.inr h
          · exact Or.inl h
        have hhead : leadsWith x (c :: replaceAllGo p q N rest) = false := by
          by_contra hcon
          rw [Bool.not_eq_false] at hcon
          cases x with
          | nil => exact absurd rfl hx
          | cons x0 xs =>
            simp only [leadsWith, Bool.and_eq_true, beq_iff_eq] at hcon
            obtain ⟨hx0, hxs⟩ := hcon
            have hxsrest : leadsWith xs rest = true :=
              suffixScanGo p q (x0 :: xs) hlen hK1 N rest
                (by simpa using Nat.le_of_succ_le_succ (by simpa using hs))
                xs [x0] rfl (by simp) hxs
            have hxlead : leadsWith (x0 :: xs) (c :: rest) = true := by
              simp [leadsWith, hx0, hxsrest]
            rcases hd with hpx | hns
            · exact hm ⟨hp, by rw [hpx]; exact hxlead⟩
            · rw [listContains_of_leadsWith hxlead] at hns
              exact absurd hns (by simp)
        rw [hhead, hR]
        simp

/-- Main no-residue theorem for `replaceAll`: the output of
`replaceAll p q s` never contains `x` — either because `x` is the replaced
pattern itself, or because `s` did not contain `x` to begin with. -/
theorem replaceAll_no_occurrence (p q x : List Char)
    (hp : p ≠ []) (hx : x ≠ [])
    (hlen : x.length ≤ q.length + 1)
    (hxq : listContains x q = false)
    (hsq : ∀ n, n < q.length → leadsWith (q.drop n) x = false)
    (hK1 : ∀ n, n ≤ x.length → 0 < n →
      leadsWith (x.drop n) q = true → leadsWith (x.drop n) p = true) :
    ∀ s, (p = x ∨ listContains x s = false) →
      listContains x (replaceAll p q s) = false :=
  fun s => replaceAllGo_no_occurrence p q x hp hx hlen hxq hsq hK1 s.length s le_rfl

theorem stepPasses_iff (acts : List String) (st : WfStep) :
    stepPasses acts st = true ↔
      ∀ u, st.uses = some u → u ≠ "" → allowedAction acts u = true := by
  cases hu : st.uses with
  | none => simp [stepPasses, stepConsidered, hu]
  | some u =>
    by_cases he : u = ""
    · subst he
      simp [stepPasses, stepConsidered, hu]
    · have hb : (u == "") = false := beq_eq_false_iff_ne.mpr he
      simp [stepPasses, stepConsidered, hu, hb, he]

theorem checkSteps_true_iff (path : String) (acts : List String) (ss : List WfStep) :
    (checkSteps path acts ss).1 = true ↔ ∀ st ∈ ss, stepPasses acts st = true := by
  induction ss with
  | nil => simp [checkSteps]
  | cons st rest ih =>
    cases hu : st.uses with
    | none =>
      simp only [checkSteps, hu, ih, List.mem_cons]
      constructor
      · intro h st' hst'
        rcases hst' with rfl | hst'
        · simp [stepPasses, stepConsidered, hu]
        · exact h st' hst'
      · intro h st' hst'
        exact h st' (Or.inr hst')
    | some u =>
      by_cases he : u = ""
      · subst he
        simp only [checkSteps, hu, if_pos (by rfl : ("" == "") = true), ih, List.mem_cons]
        constructor
        · intro h st' hst'
          rcases hst' with rfl | hst'
          · simp [stepPasses, stepConsidered, hu]
          · exact h st' hst'
        · intro h st' hst'
          exact h st' (Or.inr hst')
      · have hb : (u == "") = false := beq_eq_false_iff_ne.mpr he
        by_cases ha : allowedAction acts u = true
        · simp only [checkSteps, hu, hb, Bool.false_eq_true, if_false, ha, if_true, ih,
            List.mem_cons]
          constructor
          · intro h st' hst'
            rcases hst' with rfl | hst'
            · simp [stepPasses, stepConsidered, hu, hb, ha]
            · exact h st' hst'
          · intro h st' hst'
            exact h st' (Or.inr hst')
        · have ha' : allowedAction acts u = false := by simpa using ha
          simp only [checkSteps, hu, hb, Bool.false_eq_true, if_false, ha', if_false]
          constructor
          · intro h
            exact absurd h (by simp)
          · intro h
            have := h st (List.mem_cons_self st rest)
            rw [stepPasses_iff] at this
            exact absurd (this u hu he) (by simp [ha'])

theorem checkSteps_snd_of_true (path : String) (acts : List String) (ss : List WfStep)
    (h : (checkSteps path acts ss).1 = true) : (checkSteps path acts ss).2 = [] := by
  induction ss with
  | nil => rfl
  | cons st rest ih =>
    cases hu : st.uses with
    | none =>
      simp only [checkSteps, hu] at h ⊢
      exact ih h
    | some u =>
      by_cases he : (u == "") = true
      · simp only [checkSteps, hu, if_pos he] at h ⊢
        exact ih h
      · have hb : (u == "") = false := by simpa using he
        by_cases ha : allowedAction acts u = true
        · simp only [checkSteps, hu, hb, Bool.false_eq_true, if_false, ha, if_true] at h ⊢
          exact ih h
        · have ha' : allowedAction acts u = false := by simpa using ha
          simp [checkSteps, hu, hb, ha'] at h

theorem checkSteps_false_decomp (path : String) (acts : List String) (ss : List WfStep)
    (h : (checkSteps path acts ss).1 = false) :
    ∃ pre st post u, ss = pre ++ st :: post ∧
      (∀ st' ∈ pre, stepPasses acts st' = true) ∧
      st.uses = some u ∧ u ≠ "" ∧ allowedAction acts u = false ∧
      (checkSteps path acts ss).2 = [(path, actionNameOf u)] := by
  induction ss with
  | nil => simp [checkSteps] at h
  | cons st rest ih =>
    cases hu : st.uses with
    | none =>
      simp only [checkSteps, hu] at h ⊢
      obtain ⟨pre, st', post, u, hdec, hpre, hu', hne, hal, hsnd⟩ := ih h
      exact ⟨st :: pre, st', post, u, by simp [hdec], by
        intro s hs
        rcases List.mem_cons.mp hs with rfl | hs
        · simp [stepPasses, stepConsidered, hu]
        · exact hpre s hs, hu', hne, hal, hsnd⟩
    | some u =>
      by_cases he : (u == "") = true
      · simp only [checkSteps, hu, if_pos he] at h ⊢
        obtain ⟨pre, st', post, u', hdec, hpre, hu', hne, hal, hsnd⟩ := ih h
        exact ⟨st :: pre, st', post, u', by simp [hdec], by
          intro s hs
          rcases List.mem_cons.mp hs with rfl | hs
          · simp [stepPasses, stepConsidered, hu, he]
          · exact hpre s hs, hu', hne, hal, hsnd⟩
      · have hb : (u == "") = false := by simpa using he
        by_cases ha : allowedAction acts u = true
        · simp only [checkSteps, hu, hb, Bool.false_eq_true, if_false, ha, if_true] at h ⊢
          obtain ⟨pre, st', post, u', hdec, hpre, hu', hne, hal, hsnd⟩ := ih h
          exact ⟨st :: pre, st', post, u', by simp [hdec], by
            intro s hs
            rcases List.mem_cons.mp hs with rfl | hs
            · simp [stepPasses, stepConsidered, hu, hb, ha]
            · exact hpre s hs, hu', hne, hal, hsnd⟩
        · have ha' : allowedAction acts u = false := by simpa using ha
          refine ⟨[], st, rest, u, by simp, by simp, hu, by simpa using hb, ha', ?_⟩
          simp [checkSteps, hu, hb, ha']

theorem checkSteps_append (path : String) (acts : List String) (a b : List WfStep) :
    checkSteps path acts (a ++ b) =
      if (checkSteps path acts a).1 then checkSteps path acts b
      else checkSteps path acts a := by
  induction a with
  | nil => simp [checkSteps]
  | cons st rest ih =>
    cases hu : st.uses with
    | none => simp only [List.cons_append, checkSteps, hu, List.append_eq, ih]
    | some u =>
      by_cases he : (u == "") = true
      · simp only [List.cons_append, checkSteps, hu, if_pos he, List.append_eq, ih]
      · have hb : (u == "") = false := by simpa using he
        by_cases ha : allowedAction acts u = true
        · simp only [List.cons_append, checkSteps, hu, hb, Bool.false_eq_true, if_false,
            ha, if_true, List.append_eq, ih]
        · have ha' : allowedAction acts u = false := by simpa using ha
          simp [checkSteps, hu, hb, ha']

theorem checkJobs_eq_checkSteps (path : String) (acts : List String)
    (jl : List (String × Job)) :
    checkJobs path acts jl = checkSteps path acts (joinSteps jl) := by
  induction jl with
  | nil => rfl
  | cons nj rest ih =>
    simp only [checkJobs, joinSteps, checkSteps_append, ih]

theorem mem_joinSteps {jl : List (String × Job)} {nj : String × Job} (h1 : nj ∈ jl)
    {st : WfStep} (h2 : st ∈ nj.2.steps.getD []) : st ∈ joinSteps jl := by
  induction jl with
  | nil => simp at h1
  | cons hd rest ih =>
    rcases List.mem_cons.mp h1 with rfl | h1
    · exact List.mem_append_left _ h2
    · exact List.mem_append_right _ (ih h1)

theorem dropWhile_head_false {p : Char → Bool} :
    ∀ {l : List Char} {c : Char} {rest : List Char},
      l.dropWhile p = c :: rest → p c = false := by
  intro l
  induction l with
  | nil => intro c rest h; simp [List.dropWhile] at h
  | cons a as ih =>
    intro c rest h
    by_cases hp : p a = true
    · rw [List.dropWhile_cons_of_pos hp] at h
      exact ih h
    · have hp' : p a = false := by simpa using hp
      rw [List.dropWhile_cons_of_neg (by simp [hp'])] at h
      cases h
      exact hp'

/-- A name whose `extname` is `.yml` decomposes as a nonempty stem followed
by the literal `.yml`, and `basename(name, ".yml")` recovers exactly the
stem. -/
theorem extname_yml_decomp (s : String) (h : extnameOf s = ".yml") :
    ∃ stem : List Char, stem ≠ [] ∧ s.data = stem ++ ".yml".data ∧
      stripExt s ".yml" = String.mk stem := by
  have hy : (".yml" : String).data = ['.', 'y', 'm', 'l'] := rfl
  unfold extnameOf at h
  by_cases hlt : (s.data.reverse.takeWhile (fun c => !(c == '.'))).length + 1 < s.data.length
  · rw [if_pos hlt] at h
    have hdata : ('.' :: (s.data.reverse.takeWhile (fun c => !(c == '.'))).reverse)
        = ['.', 'y', 'm', 'l'] := by
      have := congrArg String.data h
      simpa using this
    have hafter : s.data.reverse.takeWhile (fun c => !(c == '.')) = ['l', 'm', 'y'] := by
      have h1 : (s.data.reverse.takeWhile (fun c => !(c == '.'))).reverse = ['y', 'm', 'l'] := by
        simpa using hdata
      have := congrArg List.reverse h1
      simpa using this
    have hlt4 : 4 < s.data.length := by
      rw [hafter] at hlt
      simpa using hlt
    set dr := s.data.reverse.dropWhile (fun c => !(c == '.')) with hdr
    have hsplit : s.data.reverse = ['l', 'm', 'y'] ++ dr := by
      conv_lhs => rw [(List.takeWhile_append_dropWhile
        (p := fun c => !(c == '.')) (l := s.data.reverse)).symm]
      rw [hafter]
    have hlen : s.data.reverse.length = 3 + dr.length := by
      rw [hsplit, List.length_append]
      simp
    have hdrne : dr ≠ [] := by
      intro hnil
      rw [hnil, List.length_reverse] at hlen
      simp only [List.length_nil, Nat.add_zero] at hlen
      omega
    obtain ⟨d0, drest, hdr0⟩ := List.exists_cons_of_ne_nil hdrne
    have hd0 : d0 = '.' := by
      have := dropWhile_head_false (hdr ▸ hdr0 : s.data.reverse.dropWhile
        (fun c => !(c == '.')) = d0 :: drest)
      simpa using this
    have hsdata : s.data = drest.reverse ++ ".yml".data := by
      conv_lhs => rw [← List.reverse_reverse s.data, hsplit, hdr0, hd0]
      rw [hy]
      simp
    have hslen : s.data.length = drest.reverse.length + 4 := by
      rw [hsdata, List.length_append, hy]
      simp
    have hstemne : drest.reverse ≠ [] := by
      intro hnil
      rw [hnil] at hslen
      simp only [List.length_nil, Nat.zero_add] at hslen
      omega
    refine ⟨drest.reverse, hstemne, hsdata, ?_⟩
    unfold stripExt
    rw [if_pos ?side]
    case side =>
      refine ⟨by rw [hy]; simpa using hlt4, ?_⟩
      rw [hy]
      simp only [List.length_cons, List.length_nil]
      rw [hslen, Nat.add_sub_cancel, hsdata]
      rw [← hy]
      exact List.drop_left _ _
    · rw [hy]
      simp only [List.length_cons, List.length_nil]
      rw [hslen, Nat.add_sub_cancel, hsdata]
      rw [List.take_left]
  · rw [if_neg hlt] at h
    exact absurd h (by decide)

/-- An entry scanned by the inventory loop has `isFile` set and a name of
the form `<id>.yml` where `id` is its `entryId`. -/
theorem isYmlEntry_decomp (e : DirEntry) (h : isYmlEntry e = true) :
    e.isFile = true ∧ e.name.data = (entryId e).data ++ ".yml".data := by
  unfold isYmlEntry at h
  rw [Bool.and_eq_true, beq_iff_eq] at h
  obtain ⟨hf, hext⟩ := h
  obtain ⟨stem, _, hdata, hstrip⟩ := extname_yml_decomp e.name hext
  refine ⟨hf, ?_⟩
  unfold entryId
  rw [hstrip, hdata]

/-- Two scanned `.yml` entries with the same workflow id are the same
entry. -/
theorem yml_entry_inj {e1 e2 : DirEntry} (h1 : isYmlEntry e1 = true)
    (h2 : isYmlEntry e2 = true) (hid : entryId e1 = entryId e2) : e1 = e2 := by
  obtain ⟨hf1, hn1⟩ := isYmlEntry_decomp e1 h1
  obtain ⟨hf2, hn2⟩ := isYmlEntry_decomp e2 h2
  have hname : e1.name = e2.name := by
    apply String.ext
    rw [hn1, hn2, hid]
  cases e1; cases e2
  simp_all

theorem classify_partner (env : ScanEnv) (acts partners readOnly : List String)
    (folder : String) (e : DirEntry) (p : WorkflowProperties)
    (h : isPartnerProps partners p = true) :
    classify env acts partners readOnly folder e p = some false := by
  simp [classify, h]

theorem classify_formula (env : ScanEnv) (acts partners readOnly : List String)
    (folder : String) (e : DirEntry) (p : WorkflowProperties) (wf : Workflow)
    (hwf : env.readWorkflow (pathJoin folder e.name) = some wf) :
    classify env acts partners readOnly folder e p =
      some ((!isPartnerProps partners p) &&
        ((p.enterprise == some true) || !(basename folder == "code-scanning")) &&
        (readOnly.contains folder ||
          (checkWorkflowRun (pathJoin folder e.name) wf acts).1)) := by
  by_cases h1 : isPartnerProps partners p = true
  · simp [classify, h1]
  · have h1' : isPartnerProps partners p = false := by simpa using h1
    by_cases h2 : ((p.enterprise == some true) || !(basename folder == "code-scanning")) = true
    · by_cases h3 : folder ∈ readOnly
      · simp [classify, h1', h2, h3]
      · simp [classify, h1', h2, h3, hwf]
    · have h2' : ((p.enterprise == some true) || !(basename folder == "code-scanning")) = false := by
        simpa using h2
      simp [classify, h1', h2']

theorem candOf_eq_some (env : ScanEnv) (acts partners readOnly : List String)
    (f : String) (e : DirEntry) (d : WorkflowDesc) (b : Bool) :
    candOf env acts partners readOnly f e = some (d, b) ↔
      isYmlEntry e = true ∧ ∃ p, env.props f (entryId e) = some p ∧
        classify env acts partners readOnly f e p = some b ∧
        d = descOf f (entryId e) p := by
  unfold candOf processEntry
  by_cases hy : isYmlEntry e = true
  · rw [if_pos hy]
    cases hp : env.props f (entryId e) with
    | none => simp [hy]
    | some p =>
      cases hc : classify env acts partners readOnly f e p with
      | none => simp [hy, hc]
      | some b' =>
        simp only [hy, hc, Option.map_some', Option.getD_some, Option.some_inj,
          Prod.mk.injEq, true_and]
        constructor
        · rintro ⟨rfl, rfl⟩
          exact ⟨p, rfl, hc, rfl⟩
        · rintro ⟨p', hp', hc', rfl⟩
          cases hp'
          rw [hc] at hc'
          cases hc'
          exact ⟨rfl, rfl⟩
  · rw [if_neg hy]
    simp [hy]

theorem candOf_folder {env : ScanEnv} {acts partners readOnly : List String}
    {f : String} {e : DirEntry} {d : WorkflowDesc} {b : Bool}
    (h : candOf env acts partners readOnly f e = some (d, b)) :
    d.folder = f ∧ d.id = entryId e ∧ isYmlEntry e = true := by
  rw [candOf_eq_some] at h
  obtain ⟨hy, p, _, _, rfl⟩ := h
  exact ⟨rfl, rfl, hy⟩

theorem scanEntries_some {env : ScanEnv} {acts partners readOnly : List String}
    {f : String} :
    ∀ {es : List DirEntry} {l : List (WorkflowDesc × Bool)},
      scanEntries env acts partners readOnly f es = some l →
      l = es.filterMap (candOf env acts partners readOnly f) ∧
        ∀ e ∈ es, processEntry env acts partners readOnly f e ≠ none := by
  intro es
  induction es with
  | nil =>
    intro l h
    simp only [scanEntries, Option.some_inj] at h
    subst h
    simp
  | cons e rest ih =>
    intro l h
    cases hpe : processEntry env acts partners readOnly f e with
    | none => rw [scanEntries, hpe] at h; exact absurd h (by simp)
    | some o =>
      cases o with
      | none =>
        rw [scanEntries, hpe] at h
        obtain ⟨hl, hall⟩ := ih h
        have hcand : candOf env acts partners readOnly f e = none := by
          simp [candOf, hpe]
        refine ⟨by rw [List.filterMap_cons_none hcand]; exact hl, ?_⟩
        intro e' he'
        rcases List.mem_cons.mp he' with rfl | he'
        · simp [hpe]
        · exact hall e' he'
      | some x =>
        rw [scanEntries, hpe] at h
        cases hs : scanEntries env acts partners readOnly f rest with
        | none => rw [hs] at h; exact absurd h (by simp)
        | some l' =>
          rw [hs] at h
          simp only [Option.map_some', Option.some_inj] at h
          subst h
          obtain ⟨hl, hall⟩ := ih hs
          have hcand : candOf env acts partners readOnly f e = some x := by
            simp [candOf, hpe]
          refine ⟨by rw [List.filterMap_cons_some hcand]; exact congrArg _ hl, ?_⟩
          intro e' he'
          rcases List.mem_cons.mp he' with rfl | he'
          · simp [hpe]
          · exact hall e' he'

theorem scanFolders_props {env : ScanEnv} {acts partners readOnly : List String} :
    ∀ {fs : List String} {L : List (WorkflowDesc × Bool)},
      scanFolders env acts partners readOnly fs = some L →
      (∀ x, x ∈ L ↔ ∃ f ∈ fs, ∃ e ∈ env.entries f,
        candOf env acts partners readOnly f e = some x) ∧
      (∀ f ∈ fs, ∀ e ∈ env.entries f,
        processEntry env acts partners readOnly f e ≠ none) := by
  intro fs
  induction fs with
  | nil =>
    intro L h
    simp only [scanFolders, Option.some_inj] at h
    subst h
    simp
  | cons f rest ih =>
    intro L h
    cases hs1 : scanEntries env acts partners readOnly f (env.entries f) with
    | none => rw [scanFolders, hs1] at h; exact absurd h (by simp)
    | some l1 =>
      rw [scanFolders, hs1] at h
      cases hs2 : scanFolders env acts partners readOnly rest with
      | none => rw [hs2] at h; exact absurd h (by simp)
      | some L2 =>
        rw [hs2] at h
        simp only [Option.map_some', Option.some_inj] at h
        subst h
        obtain ⟨hl1, hall1⟩ := scanEntries_some hs1
        obtain ⟨hmem2, hall2⟩ := ih hs2
        constructor
        · intro x
          rw [List.mem_append, hl1, List.mem_filterMap, hmem2]
          constructor
          · rintro (⟨e, he, hc⟩ | ⟨f', hf', e, he, hc⟩)
            · exact ⟨f, List.mem_cons_self f rest, e, he, hc⟩
            · exact ⟨f', List.mem_cons_of_mem f hf', e, he, hc⟩
          · rintro ⟨f', hf', e, he, hc⟩
            rcases List.mem_cons.mp hf' with rfl | hf'
            · exact Or.inl ⟨e, he, hc⟩
            · exact Or.inr ⟨f', hf', e, he, hc⟩
        · intro f' hf' e he
          rcases List.mem_cons.mp hf' with rfl | hf'
          · exact hall1 e he
          · exact hall2 f' hf' e he

theorem scanFolders_descs_nodup {env : ScanEnv} {acts partners readOnly : List String} :
    ∀ {fs : List String} {L : List (WorkflowDesc × Bool)},
      fs.Nodup → (∀ f ∈ fs, ((env.entries f).map DirEntry.name).Nodup) →
      scanFolders env acts partners readOnly fs = some L →
      (L.map (fun x => x.1)).Nodup := by
  intro fs
  induction fs with
  | nil =>
    intro L _ _ h
    simp only [scanFolders, Option.some_inj] at h
    subst h
    simp
  | cons f rest ih =>
    intro L hnd hnames h
    cases hs1 : scanEntries env acts partners readOnly f (env.entries f) with
    | none => rw [scanFolders, hs1] at h; exact absurd h (by simp)
    | some l1 =>
      rw [scanFolders, hs1] at h
      cases hs2 : scanFolders env acts partners readOnly rest with
      | none => rw [hs2] at h; exact absurd h (by simp)
      | some L2 =>
        rw [hs2] at h
        simp only [Option.map_some', Option.some_inj] at h
        subst h
        obtain ⟨hl1, _⟩ := scanEntries_some hs1
        have hnd1 : (l1.map (fun x => x.1)).Nodup := by
          rw [hl1, List.map_filterMap]
          refine List.Nodup.filterMap ?_ ?_
          · intro e1 e2 d hd1 hd2
            rw [Option.mem_def, Option.map_eq_some'] at hd1 hd2
            obtain ⟨⟨d1, b1⟩, hc1, hd1'⟩ := hd1
            obtain ⟨⟨d2, b2⟩, hc2, hd2'⟩ := hd2
            obtain ⟨hf1, hid1, hy1⟩ := candOf_folder hc1
            obtain ⟨hf2, hid2, hy2⟩ := candOf_folder hc2
            refine yml_entry_inj hy1 hy2 ?_
            rw [← hid1, ← hid2]
            simp only at hd1' hd2'
            rw [hd1', hd2']
          · exact List.Nodup.of_map _ (hnames f (List.mem_cons_self f rest))
        have hnd2 : (L2.map (fun x => x.1)).Nodup :=
          ih (List.Nodup.of_cons hnd)
            (fun f' hf' => hnames f' (List.mem_cons_of_mem f hf')) hs2
        rw [List.map_append]
        refine List.Nodup.append hnd1 hnd2 ?_
        intro d hd1 hd2
        rw [List.mem_map] at hd1 hd2
        obtain ⟨⟨d1, b1⟩, hx1, hdx1⟩ := hd1
        obtain ⟨⟨d2, b2⟩, hx2, hdx2⟩ := hd2
        rw [hl1, List.mem_filterMap] at hx1
        obtain ⟨e, _, hc1⟩ := hx1
        obtain ⟨hf1, _, _⟩ := candOf_folder hc1
        obtain ⟨hmem2, _⟩ := scanFolders_props hs2
        rw [hmem2] at hx2
        obtain ⟨f', hf', e', _, hc2⟩ := hx2
        obtain ⟨hf2, _, _⟩ := candOf_folder hc2
        have : f = f' := by
          simp only at hdx1 hdx2
          rw [← hf1, ← hf2, hdx1, hdx2]
        subst this
        exact (List.nodup_cons.mp hnd).1 hf'

theorem pair_unique {L : List (WorkflowDesc × Bool)}
    (hnd : (L.map (fun x => x.1)).Nodup) {d : WorkflowDesc} {b1 b2 : Bool}
    (h1 : (d, b1) ∈ L) (h2 : (d, b2) ∈ L) : b1 = b2 := by
  have := List.inj_on_of_nodup_map hnd h1 h2 rfl
  cases this
  rfl

theorem mem_compat_of_partition {L : List (WorkflowDesc × Bool)} {d : WorkflowDesc} :
    d ∈ (L.filter (fun x => x.2)).map (fun x => x.1) ↔ (d, true) ∈ L := by
  rw [List.mem_map]
  constructor
  · rintro ⟨⟨d', b⟩, hx, rfl⟩
    rw [List.mem_filter] at hx
    obtain ⟨hmem, hb⟩ := hx
    simp only at hb
    rw [show b = true from hb] at hmem
    exact hmem
  · intro h
    exact ⟨(d, true), List.mem_filter.mpr ⟨h, rfl⟩, rfl⟩

theorem mem_incompat_of_partition {L : List (WorkflowDesc × Bool)} {d : WorkflowDesc} :
    d ∈ (L.filter (fun x => !x.2)).map (fun x => x.1) ↔ (d, false) ∈ L := by
  rw [List.mem_map]
  constructor
  · rintro ⟨⟨d', b⟩, hx, rfl⟩
    rw [List.mem_filter] at hx
    obtain ⟨hmem, hb⟩ := hx
    simp only [Bool.not_eq_true'] at hb
    rw [show b = false from hb] at hmem
    exact hmem
  · intro h
    exact ⟨(d, false), List.mem_filter.mpr ⟨h, rfl⟩, rfl⟩

theorem checkWorkflows_destruct {env : ScanEnv} {acts partners readOnly folders : List String}
    {r : WorkflowsCheckResult}
    (h : checkWorkflows env acts partners readOnly folders = some r) :
    ∃ L, scanFolders env acts partners readOnly folders = some L ∧
      r.compatibleWorkflows = (L.filter (fun x => x.2)).map (fun x => x.1) ∧
      r.incompatibleWorkflows = (L.filter (fun x => !x.2)).map (fun x => x.1) := by
  unfold checkWorkflows at h
  cases hs : scanFolders env acts partners readOnly folders with
  | none => rw [hs] at h; exact absurd h (by simp)
  | some L =>
    rw [hs] at h
    simp only [Option.map_some', Option.some_inj] at h
    subst h
    exact ⟨L, rfl, rfl, rfl⟩

theorem listContains_nil_left (s : List Char) : listContains [] s = true := by
  cases s with
  | nil => rfl
  | cons c rest => simp [listContains, leadsWith]

theorem str_data_append (a b : String) : (a ++ b).data = a.data ++ b.data := by
  cases a
  cases b
  rfl

theorem string_mk_data (s : String) : String.mk s.data = s := by
  cases s
  rfl

theorem strContains_self (s : String) : strContains s s = true := by
  unfold strContains
  exact listContains_of_leadsWith (leadsWith_refl s.data)

theorem strContains_append_right (a b t : String) (h : strContains b t = true) :
    strContains (a ++ b) t = true := by
  unfold strContains at h ⊢
  rw [str_data_append]
  exact listContains_append_right a.data h

theorem takeWhile_all {p : Char → Bool} :
    ∀ l : List Char, (∀ c ∈ l, p c = true) → l.takeWhile p = l := by
  intro l
  induction l with
  | nil => intro _; rfl
  | cons c rest ih =>
    intro h
    rw [List.takeWhile_cons_of_pos (h c (List.mem_cons_self c rest))]
    rw [ih (fun c' hc' => h c' (List.mem_cons_of_mem c hc'))]

/-- C2, counterexample: the claim says the orchestrator applies
placeholder-step insertion to every compatible non-read-only workflow and
then regenerates CODEOWNERS before the run completes.  The entry point of
the sync script performs neither action: its pipeline ends with the
artifact version downgrade. -/
theorem C2_pipeline_counterexample :
    OrchAction.addPlaceholderSteps ∉ mainPipeline ∧
    OrchAction.regenerateCodeowners ∉ mainPipeline := by
  decide

/-- C2, amended: after restoring compatible workflows the orchestrator
applies the artifact version downgrade as its final action and the run
completes; no placeholder-step insertion and no CODEOWNERS regeneration
are performed (those helpers exist in the repository but are never invoked
by the entry point). -/
theorem C2_pipeline_amended :
    OrchAction.restoreCompatiblePaths ∈ mainPipeline ∧
    OrchAction.downgradeArtifactActions ∈ mainPipeline ∧
    mainPipeline.indexOf OrchAction.restoreCompatiblePaths <
      mainPipeline.indexOf OrchAction.downgradeArtifactActions ∧
    mainPipeline.getLast? = some OrchAction.downgradeArtifactActions ∧
    OrchAction.addPlaceholderSteps ∉ mainPipeline ∧
    OrchAction.regenerateCodeowners ∉ mainPipeline := by
  decide

/-- C4: the version-downgrade transform leaves a file without the literal
`@v4` untouched, and whenever it does rewrite a file, the result contains
no occurrence of `actions/upload-artifact@v4` and no occurrence of
`actions/download-artifact@v4`. -/
theorem C4_downgrade_transform (content : String) :
    (strContains content "@v4" = false → downgradeContent content = none) ∧
    (∀ res, downgradeContent content = some res →
      strContains res "actions/upload-artifact@v4" = false ∧
      strContains res "actions/download-artifact@v4" = false) := by
  constructor
  · intro h
    simp [downgradeContent, h]
  · intro res hres
    unfold downgradeContent at hres
    by_cases hc : strContains content "@v4" = true
    · rw [if_pos hc] at hres
      have hres' : res = replaceAllStr "actions/download-artifact@v4"
          "actions/download-artifact@v3"
          (replaceAllStr "actions/upload-artifact@v4" "actions/upload-artifact@v3"
            content) := (Option.some_inj.mp hres).symm
      subst hres'
      have hU1 : listContains ("actions/upload-artifact@v4".data)
          (replaceAll "actions/upload-artifact@v4".data
            "actions/upload-artifact@v3".data content.data) = false :=
        replaceAll_no_occurrence "actions/upload-artifact@v4".data
          "actions/upload-artifact@v3".data "actions/upload-artifact@v4".data
          (by decide) (by decide) (by decide) (by decide) (by decide) (by decide)
          content.data (Or.inl rfl)
      have hU2 : listContains ("actions/upload-artifact@v4".data)
          (replaceAll "actions/download-artifact@v4".data
            "actions/download-artifact@v3".data
            (replaceAll "actions/upload-artifact@v4".data
              "actions/upload-artifact@v3".data content.data)) = false :=
        replaceAll_no_occurrence "actions/download-artifact@v4".data
          "actions/download-artifact@v3".data "actions/upload-artifact@v4".data
          (by decide) (by decide) (by decide) (by decide) (by decide) (by decide)
          _ (Or.inr hU1)
      have hD : listContains ("actions/download-artifact@v4".data)
          (replaceAll "actions/download-artifact@v4".data
            "actions/download-artifact@v3".data
            (replaceAll "actions/upload-artifact@v4".data
              "actions/upload-artifact@v3".data content.data)) = false :=
        replaceAll_no_occurrence "actions/download-artifact@v4".data
          "actions/download-artifact@v3".data "actions/download-artifact@v4".data
          (by decide) (by decide) (by decide) (by decide) (by decide) (by decide)
          _ (Or.inl rfl)
      exact ⟨hU2, hD⟩
    · have hc' : ¬(strContains content "@v4" = true) := hc
      rw [if_neg hc'] at hres
      exact absurd hres (by simp)

/-- C4 witness: the transform on a file containing the upload-artifact
`@v4` literal, evaluated concretely. -/
theorem C4_downgrade_transform_check :
    downgradeContent "uses: actions/upload-artifact@v4" =
      some "uses: actions/upload-artifact@v3" ∧
    (strContains "uses: actions/upload-artifact@v3" "actions/upload-artifact@v4" = false ∧
     strContains "uses: actions/upload-artifact@v3" "actions/download-artifact@v4" = false) :=
  ⟨by decide,
   (C4_downgrade_transform "uses: actions/upload-artifact@v4").2
     "uses: actions/upload-artifact@v3" (by decide)⟩

/-- C5: the placeholder-step transform is the identity on documents with
no `jobs` key, and otherwise appends the fixed placeholder step to the end
of every job step list (creating the list when absent), as on the concrete
two-job example of the specification. -/
theorem C5_placeholder_insertion :
    (∀ wf : Workflow, wf.jobs = none → addPlaceholderStep wf = wf) ∧
    (∀ (wf : Workflow) (jl : List (String × Job)), wf.jobs = some jl →
      ∃ jl', (addPlaceholderStep wf).jobs = some jl' ∧ jl'.length = jl.length ∧
        ∀ nj ∈ jl,
          (nj.1, Job.mk (some (nj.2.steps.getD [] ++ [placeholderStep]))) ∈ jl') ∧
    (∀ s1 : WfStep,
      addPlaceholderStep ⟨some [("build", ⟨some [s1]⟩), ("test", ⟨some []⟩)]⟩ =
        ⟨some [("build", ⟨some [s1, placeholderStep]⟩),
               ("test", ⟨some [placeholderStep]⟩)]⟩) := by
  refine ⟨?_, ?_, ?_⟩
  · intro wf h
    simp [addPlaceholderStep, h]
  · intro wf jl h
    refine ⟨jl.map (fun nj => (nj.1, ⟨some (nj.2.steps.getD [] ++ [placeholderStep])⟩)),
      ?_, by simp, ?_⟩
    · simp [addPlaceholderStep, h]
    · intro nj hnj
      exact List.mem_map.mpr ⟨nj, hnj, rfl⟩
  · intro s1
    rfl

/-- C5 witness: the transform evaluated on a no-jobs document and on the
concrete two-job example. -/
theorem C5_placeholder_insertion_check :
    addPlaceholderStep (Workflow.mk none) = Workflow.mk none ∧
    addPlaceholderStep ⟨some [("build", ⟨some [sampleStep]⟩), ("test", ⟨some []⟩)]⟩ =
      ⟨some [("build", ⟨some [sampleStep, placeholderStep]⟩),
             ("test", ⟨some [placeholderStep]⟩)]⟩ :=
  ⟨C5_placeholder_insertion.1 (Workflow.mk none) rfl,
   C5_placeholder_insertion.2.2 sampleStep⟩

/-- C6: the CODEOWNERS generator emits the generated-file header, a blank
line, one `<pattern> <teams joined by spaces>` line per rule in config
order, and a trailing blank line; on the one-rule example config the
emitted content is exactly as the specification states. -/
theorem C6_codeowners_format :
    (∀ config : CodeOwnersConfig,
      codeownersLines config = codeownersHeader :: "" ::
        (config.owners.map codeownerLine ++ [""])) ∧
    (∀ r : CodeOwnerRule, codeownerLine r = r.pattern ++ " " ++ joinWith " " r.teams) ∧
    codeownersContent ⟨[⟨"/src/", ["@org/team-a"]⟩]⟩ =
      "# Auto-generated CODEOWNERS. Do not edit manually.\n\n/src/ @org/team-a\n" := by
  refine ⟨fun _ => rfl, fun _ => rfl, ?_⟩
  decide

/-- C8: the command runner rejects on a spawn error, rejects when an armed
timeout expires (never silently succeeding), rejects with a message that
carries the trimmed captured stderr on a disallowed non-zero exit, and
resolves with the captured stdout/stderr/exit code when the exit code is
zero or non-zero exit was explicitly allowed. -/
theorem C8_exec_contract (command : String) (args : List String) (opts : ExecOptions)
    (child : ChildBehavior) :
    (∀ m, child = ChildBehavior.spawnError m →
      execModel command args opts child = .error (.spawnFailure m)) ∧
    (∀ code out err dur, child = ChildBehavior.closes code out err dur →
      (timeoutFires opts dur = true →
        ∃ m, execModel command args opts child = .error (.timeout m)) ∧
      (timeoutFires opts dur = false → (code = some 0 ∨ opts.allowNonZeroExit = true) →
        execModel command args opts child = .ok ⟨out, err, code⟩) ∧
      (timeoutFires opts dur = false → code ≠ some 0 → opts.allowNonZeroExit = false →
        ∃ m, execModel command args opts child = .error (.nonZeroExit m) ∧
          strContains m (strTrim err) = true)) := by
  constructor
  · rintro m rfl
    rfl
  · rintro code out err dur rfl
    refine ⟨?_, ?_, ?_⟩
    · intro ht
      exact ⟨"Command timed out after " ++ toString (opts.timeoutMs.getD 0) ++ "ms",
        by simp [execModel, ht]⟩
    · intro ht hok
      have hcond : (code == some 0 || opts.allowNonZeroExit) = true := by
        rcases hok with h | h
        · simp [h]
        · simp [h]
      simp [execModel, ht, hcond]
    · intro ht hneq hallow
      have hcond : (code == some 0 || opts.allowNonZeroExit) = false := by
        rw [Bool.or_eq_false_iff]
        exact ⟨beq_eq_false_iff_ne.mpr hneq, hallow⟩
      refine ⟨nonZeroExitMessage command args code err, ?_, ?_⟩
      · simp [execModel, ht, hcond]
      · unfold nonZeroExitMessage
        by_cases he : (strTrim err == "") = true
        · have he' : strTrim err = "" := by simpa using he
          rw [he']
          unfold strContains
          exact listContains_nil_left _
        · rw [if_neg he]
          repeat apply strContains_append_right
          exact strContains_self _

/-- C8 witness: a disallowed exit code 1 with stderr `boom` and no
timeout, evaluated concretely. -/
theorem C8_exec_contract_check :
    timeoutFires {} 5 = false ∧
    (∃ m, execModel "git" ["status"] {} (ChildBehavior.closes (some 1) "" "boom" 5) =
        .error (.nonZeroExit m) ∧ strContains m (strTrim "boom") = true) :=
  ⟨rfl,
   ((C8_exec_contract "git" ["status"] {}
       (ChildBehavior.closes (some 1) "" "boom" 5)).2
     (some 1) "" "boom" 5 rfl).2.2 rfl (by decide) rfl⟩

/-- C3, counterexample: the claim quantifies over every step with a `uses`
field, but a step whose `uses` value is the empty string is skipped by the
JavaScript truthiness guard `if (step.uses)`: its owner/repo is not in the
allow-list, yet the checker returns true and emits no diagnostic. -/
theorem C3_checker_counterexample :
    (∃ st ∈ allStepsOf cexWorkflowC3, st.uses = some "" ∧
      allowedAction ["actions/checkout"] "" = false) ∧
    checkWorkflowRun "ci/blank.yml" cexWorkflowC3 ["actions/checkout"] = (true, []) := by
  decide

/-- C3, amended: for every step whose `uses` field holds a nonempty
string, the checker truncates the value before the first `@` to its first
two `/`-separated segments and tests case-insensitive membership in the
allow-list; the workflow passes exactly when every such reference is a
member, a passing run emits no diagnostic, and a failing run stops at the
first evaluated non-member, emitting exactly one diagnostic that names the
workflow file and the offending reference. -/
theorem C3_checker_amended (path : String) (wf : Workflow) (acts : List String) :
    ((checkWorkflowRun path wf acts).1 = true ↔
      ∀ st ∈ allStepsOf wf, ∀ u, st.uses = some u → u ≠ "" →
        allowedAction acts u = true) ∧
    ((checkWorkflowRun path wf acts).1 = true → (checkWorkflowRun path wf acts).2 = []) ∧
    ((checkWorkflowRun path wf acts).1 = false →
      ∃ pre st post u, allStepsOf wf = pre ++ st :: post ∧
        (∀ st' ∈ pre, ∀ u', st'.uses = some u' → u' ≠ "" →
          allowedAction acts u' = true) ∧
        st.uses = some u ∧ u ≠ "" ∧ allowedAction acts u = false ∧
        (checkWorkflowRun path wf acts).2 = [(path, actionNameOf u)]) := by
  have hrun : checkWorkflowRun path wf acts = checkSteps path acts (allStepsOf wf) := by
    unfold checkWorkflowRun allStepsOf
    exact checkJobs_eq_checkSteps path acts _
  refine ⟨?_, ?_, ?_⟩
  · rw [hrun, checkSteps_true_iff]
    constructor
    · intro h st hst u hu hne
      have := h st hst
      rw [stepPasses_iff] at this
      exact this u hu hne
    · intro h st hst
      rw [stepPasses_iff]
      intro u hu hne
      exact h st hst u hu hne
  · rw [hrun]
    exact checkSteps_snd_of_true path acts _
  · rw [hrun]
    intro h
    obtain ⟨pre, st, post, u, hdec, hpre, hu, hne, hal, hsnd⟩ :=
      checkSteps_false_decomp path acts _ h
    exact ⟨pre, st, post, u, hdec,
      fun st' hst' u' hu' hne' => (stepPasses_iff acts st').mp (hpre st' hst') u' hu' hne',
      hu, hne, hal, hsnd⟩

/-- C3 witness: a one-step workflow whose reference is allow-listed passes
and emits no diagnostic. -/
theorem C3_checker_amended_check :
    (checkWorkflowRun "ci/blank.yml" okWorkflowC3 ["actions/checkout"]).1 = true ∧
    (checkWorkflowRun "ci/blank.yml" okWorkflowC3 ["actions/checkout"]).2 = [] :=
  ⟨by decide,
   (C3_checker_amended "ci/blank.yml" okWorkflowC3 ["actions/checkout"]).2.1 (by decide)⟩

/-- C9, counterexample: the claim quantifies over every step whose `uses`
value contains no `@`, but the empty string contains no `@`, is not
allow-listed after truncation, and is nevertheless skipped: the checker
accepts the workflow. -/
theorem C9_unpinned_counterexample :
    (∀ c ∈ ("" : String).data, c ≠ '@') ∧
    allowedAction ["actions/setup-node"] "" = false ∧
    checkWorkflowRun "ci/deploy.yml" cexWorkflowC9 ["actions/setup-node"] = (true, []) := by
  decide

/-- C9, amended: for every step whose `uses` value is a nonempty string
containing no `@`, the checker evaluates it — the extracted reference is
the entire value, its first two `/`-separated segments are tested against
the allow-list, a non-member makes the workflow incompatible, and on a
single-step workflow the verdict equals the membership test. -/
theorem C9_unpinned_amended :
    (∀ u : String, (∀ c ∈ u.data, c ≠ '@') → actionNameOf u = u) ∧
    (∀ (path : String) (wf : Workflow) (acts : List String) (nj : String × Job)
        (st : WfStep) (u : String), nj ∈ wf.jobs.getD [] → st ∈ nj.2.steps.getD [] →
      st.uses = some u → u ≠ "" → allowedAction acts u = false →
      (checkWorkflowRun path wf acts).1 = false) ∧
    (∀ (path u : String) (acts : List String), u ≠ "" →
      (checkWorkflowRun path ⟨some [("job", ⟨some [{ uses := some u }]⟩)]⟩ acts).1 =
        allowedAction acts u) := by
  refine ⟨?_, ?_, ?_⟩
  · intro u hu
    have hall : ∀ c ∈ u.data, (!(c == '@')) = true := by
      intro c hc
      have hne : c ≠ '@' := hu c hc
      simp [hne]
    unfold actionNameOf
    rw [takeWhile_all u.data hall]
  · intro path wf acts nj st u hnj hst hu hne hal
    by_contra h
    have h' : (checkWorkflowRun path wf acts).1 = true := by simpa using h
    have hrun : checkWorkflowRun path wf acts = checkSteps path acts (allStepsOf wf) := by
      unfold checkWorkflowRun allStepsOf
      exact checkJobs_eq_checkSteps path acts _
    rw [hrun, checkSteps_true_iff] at h'
    have hstep := h' st (mem_joinSteps hnj hst)
    rw [stepPasses_iff] at hstep
    exact absurd (hstep u hu hne) (by simp [hal])
  · intro path u acts hne
    have hb : (u == "") = false := beq_eq_false_iff_ne.mpr hne
    cases ha : allowedAction acts u
    · simp [checkWorkflowRun, checkJobs, checkSteps, hb, ha]
    · simp [checkWorkflowRun, checkJobs, checkSteps, hb, ha]

/-- C9 witness: the unpinned reference `actions/checkout` on a single-step
workflow is accepted exactly because its owner/repo is allow-listed. -/
theorem C9_unpinned_amended_check :
    ("actions/checkout" : String) ≠ "" ∧
    (checkWorkflowRun "p.yml" ⟨some [("job", ⟨some [{ uses := some "actions/checkout" }]⟩)]⟩
        ["actions/checkout"]).1 = allowedAction ["actions/checkout"] "actions/checkout" ∧
    allowedAction ["actions/checkout"] "actions/checkout" = true :=
  ⟨by decide,
   C9_unpinned_amended.2.2 "p.yml" "actions/checkout" ["actions/checkout"] (by decide),
   by decide⟩

/-- C7: on a completed scan over distinct folders with duplicate-free
directory listings, no descriptor is in both output lists, the combined
output is duplicate-free, a descriptor is in the output exactly when it
comes from a regular `.yml` entry of a scanned folder whose sidecar
loaded, each listed descriptor corresponds to exactly one such `.yml`
entry, and a workflow whose sidecar is missing or unparsable appears in
neither list. -/
theorem C7_partition_invariant (env : ScanEnv) (acts partners readOnly folders : List String)
    (r : WorkflowsCheckResult)
    (hND1 : folders.Nodup)
    (hND2 : ∀ f ∈ folders, ((env.entries f).map DirEntry.name).Nodup)
    (hres : checkWorkflows env acts partners readOnly folders = some r) :
    (∀ d, ¬(d ∈ r.compatibleWorkflows ∧ d ∈ r.incompatibleWorkflows)) ∧
    (r.compatibleWorkflows ++ r.incompatibleWorkflows).Nodup ∧
    (∀ d, d ∈ r.compatibleWorkflows ++ r.incompatibleWorkflows ↔
      (d.folder ∈ folders ∧ ∃ e ∈ env.entries d.folder, isYmlEntry e = true ∧
        entryId e = d.id ∧ ∃ p, env.props d.folder d.id = some p ∧
          d = descOf d.folder d.id p)) ∧
    (∀ d ∈ r.compatibleWorkflows ++ r.incompatibleWorkflows,
      ∃! e, e ∈ env.entries d.folder ∧ isYmlEntry e = true ∧ entryId e = d.id) ∧
    (∀ d : WorkflowDesc, env.props d.folder d.id = none →
      d ∉ r.compatibleWorkflows ++ r.incompatibleWorkflows) := by
  obtain ⟨L, hL, hcomp, hincomp⟩ := checkWorkflows_destruct hres
  obtain ⟨hmem, hfatal⟩ := scanFolders_props hL
  have hnd := scanFolders_descs_nodup hND1 hND2 hL
  have hc : ∀ d, d ∈ r.compatibleWorkflows ↔ (d, true) ∈ L := by
    intro d
    rw [hcomp]
    exact mem_compat_of_partition
  have hi : ∀ d, d ∈ r.incompatibleWorkflows ↔ (d, false) ∈ L := by
    intro d
    rw [hincomp]
    exact mem_incompat_of_partition
  have hdisj : ∀ d, ¬(d ∈ r.compatibleWorkflows ∧ d ∈ r.incompatibleWorkflows) := by
    rintro d ⟨h1, h2⟩
    have := pair_unique hnd ((hc d).mp h1) ((hi d).mp h2)
    exact absurd this (by simp)
  have hnodups : (r.compatibleWorkflows ++ r.incompatibleWorkflows).Nodup := by
    have hcompnd : r.compatibleWorkflows.Nodup := by
      rw [hcomp]
      exact List.Nodup.sublist (List.Sublist.map _ (List.filter_sublist L)) hnd
    have hincompnd : r.incompatibleWorkflows.Nodup := by
      rw [hincomp]
      exact List.Nodup.sublist (List.Sublist.map _ (List.filter_sublist L)) hnd
    refine List.Nodup.append hcompnd hincompnd ?_
    intro d h1 h2
    exact hdisj d ⟨h1, h2⟩
  have hunion : ∀ d, d ∈ r.compatibleWorkflows ++ r.incompatibleWorkflows ↔
      ∃ b, (d, b) ∈ L := by
    intro d
    rw [List.mem_append, hc d, hi d]
    constructor
    · rintro (h | h)
      · exact ⟨true, h⟩
      · exact ⟨false, h⟩
    · rintro ⟨b, hb⟩
      cases b
      · exact Or.inr hb
      · exact Or.inl hb
  have hiff : ∀ d, d ∈ r.compatibleWorkflows ++ r.incompatibleWorkflows ↔
      (d.folder ∈ folders ∧ ∃ e ∈ env.entries d.folder, isYmlEntry e = true ∧
        entryId e = d.id ∧ ∃ p, env.props d.folder d.id = some p ∧
          d = descOf d.folder d.id p) := by
    intro d
    rw [hunion]
    constructor
    · rintro ⟨b, hb⟩
      obtain ⟨f, hf, e, he, hcand⟩ := (hmem (d, b)).mp hb
      rw [candOf_eq_some] at hcand
      obtain ⟨hy, p, hp, hcl, hdesc⟩ := hcand
      subst hdesc
      exact ⟨hf, e, he, hy, rfl, p, hp, rfl⟩
    · rintro ⟨hf, e, he, hy, hid, p, hp, hdesc⟩
      have hp' : env.props d.folder (entryId e) = some p := by
        rw [hid]
        exact hp
      have hpf := hfatal d.folder hf e he
      cases hcl : classify env acts partners readOnly d.folder e p with
      | none =>
        exfalso
        apply hpf
        unfold processEntry
        rw [if_pos hy, hp']
        show (classify env acts partners readOnly d.folder e p).map
          (fun b => some (descOf d.folder (entryId e) p, b)) = none
        rw [hcl]
        rfl
      | some b =>
        refine ⟨b, (hmem _).mpr ⟨d.folder, hf, e, he, ?_⟩⟩
        rw [candOf_eq_some]
        refine ⟨hy, p, hp', hcl, ?_⟩
        rw [hid]
        exact hdesc
  refine ⟨hdisj, hnodups, hiff, ?_, ?_⟩
  · intro d hd
    obtain ⟨hf, e, he, hy, hid, p, hp, hdesc⟩ := (hiff d).mp hd
    refine ⟨e, ⟨he, hy, hid⟩, ?_⟩
    rintro e' ⟨he', hy', hid'⟩
    exact yml_entry_inj hy' hy (hid'.trans hid.symm)
  · intro d hpnone hd
    obtain ⟨hf, e, he, hy, hid, p, hp, _⟩ := (hiff d).mp hd
    rw [hpnone] at hp
    exact absurd hp (by simp)

/-- C7 witness: the concrete one-workflow environment, on which the scan
completes with the expected partition. -/
theorem C7_partition_invariant_check :
    checkWorkflows witnessEnv ["actions/checkout"] ["IBM"] [] ["ci"] = some witnessResult ∧
    (∀ d, ¬(d ∈ witnessResult.compatibleWorkflows ∧
      d ∈ witnessResult.incompatibleWorkflows)) ∧
    (witnessResult.compatibleWorkflows ++ witnessResult.incompatibleWorkflows).Nodup :=
  ⟨by decide,
   (C7_partition_invariant witnessEnv ["actions/checkout"] ["IBM"] [] ["ci"] witnessResult
     (by decide) (by decide) (by decide)).1,
   (C7_partition_invariant witnessEnv ["actions/checkout"] ["IBM"] [] ["ci"] witnessResult
     (by decide) (by decide) (by decide)).2.1⟩

/-- C1: on a completed scan, a scanned workflow with a loaded sidecar and
readable YAML is placed in the compatible list exactly when its creator is
not (case-insensitively) a partner, and its properties declare
`enterprise: true` or its folder is not the `code-scanning` sentinel, and
its folder is read-only or the compatibility checker accepts its YAML; in
particular a partner-created workflow always lands in the incompatible
list, regardless of its action references and of read-only status. -/
theorem C1_scanner_classification (env : ScanEnv) (acts partners readOnly folders : List String)
    (r : WorkflowsCheckResult) (f : String) (e : DirEntry) (p : WorkflowProperties)
    (hND1 : folders.Nodup)
    (hND2 : ∀ g ∈ folders, ((env.entries g).map DirEntry.name).Nodup)
    (hres : checkWorkflows env acts partners readOnly folders = some r)
    (hf : f ∈ folders) (he : e ∈ env.entries f) (hyml : isYmlEntry e = true)
    (hp : env.props f (entryId e) = some p) :
    (∀ wf, env.readWorkflow (pathJoin f e.name) = some wf →
      (descOf f (entryId e) p ∈ r.compatibleWorkflows ↔
        (isPartnerProps partners p = false ∧
         (p.enterprise = some true ∨ basename f ≠ "code-scanning") ∧
         (f ∈ readOnly ∨ (checkWorkflowRun (pathJoin f e.name) wf acts).1 = true)))) ∧
    (isPartnerProps partners p = true →
      descOf f (entryId e) p ∈ r.incompatibleWorkflows) := by
  obtain ⟨L, hL, hcomp, hincomp⟩ := checkWorkflows_destruct hres
  obtain ⟨hmem, hfatal⟩ := scanFolders_props hL
  have hnd := scanFolders_descs_nodup hND1 hND2 hL
  have hpf := hfatal f hf e he
  obtain ⟨b, hcl⟩ : ∃ b, classify env acts partners readOnly f e p = some b := by
    cases hcl : classify env acts partners readOnly f e p with
    | none =>
      exfalso
      apply hpf
      unfold processEntry
      rw [if_pos hyml, hp]
      show (classify env acts partners readOnly f e p).map
        (fun b => some (descOf f (entryId e) p, b)) = none
      rw [hcl]
      rfl
    | some b => exact ⟨b, rfl⟩
  have hcand : candOf env acts partners readOnly f e =
      some (descOf f (entryId e) p, b) := by
    rw [candOf_eq_some]
    exact ⟨hyml, p, hp, hcl, rfl⟩
  have hinL : (descOf f (entryId e) p, b) ∈ L :=
    (hmem _).mpr ⟨f, hf, e, he, hcand⟩
  have hcompat_iff : descOf f (entryId e) p ∈ r.compatibleWorkflows ↔ b = true := by
    rw [hcomp, mem_compat_of_partition]
    constructor
    · intro h
      exact (pair_unique hnd h hinL).symm
    · intro h
      exact h ▸ hinL
  constructor
  · intro wf hwf
    have hformula := classify_formula env acts partners readOnly f e p wf hwf
    have hb : b = ((!isPartnerProps partners p) &&
        ((p.enterprise == some true) || !(basename f == "code-scanning")) &&
        (readOnly.contains f ||
          (checkWorkflowRun (pathJoin f e.name) wf acts).1)) :=
      Option.some_inj.mp (hcl.symm.trans hformula)
    rw [hcompat_iff, hb]
    simp [Bool.not_eq_true', beq_eq_false_iff_ne, and_assoc]
  · intro hpart
    have hb : b = false :=
      Option.some_inj.mp (hcl.symm.trans
        (classify_partner env acts partners readOnly f e p hpart))
    rw [hb] at hinL
    rw [hincomp]
    exact mem_incompat_of_partition.mpr hinL

/-- C1 witness: the concrete environment, where the single workflow is not
partner-created, is outside the restricted category, is not read-only, and
passes the checker, so it is classified compatible. -/
theorem C1_scanner_classification_check :
    checkWorkflows witnessEnv ["actions/checkout"] ["IBM"] [] ["ci"] = some witnessResult ∧
    ((∀ wf, witnessEnv.readWorkflow (pathJoin "ci" "blank.yml") = some wf →
      (descOf "ci" (entryId ⟨"blank.yml", true⟩) witnessProps ∈
          witnessResult.compatibleWorkflows ↔
        (isPartnerProps ["IBM"] witnessProps = false ∧
         (witnessProps.enterprise = some true ∨ basename "ci" ≠ "code-scanning") ∧
         ("ci" ∈ ([] : List String) ∨
           (checkWorkflowRun (pathJoin "ci" "blank.yml") wf ["actions/checkout"]).1 =
             true)))) ∧
     (isPartnerProps ["IBM"] witnessProps = true →
      descOf "ci" (entryId ⟨"blank.yml", true⟩) witnessProps ∈
        witnessResult.incompatibleWorkflows)) :=
  ⟨by decide,
   C1_scanner_classification witnessEnv ["actions/checkout"] ["IBM"] [] ["ci"]
     witnessResult "ci" ⟨"blank.yml", true⟩ witnessProps
     (by decide) (by decide) (by decide) (by decide) (by decide) (by decide) (by decide)⟩

end SyncGhes
